import Mathlib

/-!
Shallow embedding of the liquid template front end
(`src/liquid-compiler/src/parser.rs`, `src/liquid-compiler/src/token.rs`,
`src/src/interpreter/output.rs`) together with theorems settling the
specification claims about it.

Rust `Result` is modelled by `Except Error`; places where the Rust code can
abort uncatchably (slice indexing out of bounds, `.expect`) are modelled by
an explicit `panic` outcome (`RResult.panic`, or `Option` with `none` for
helper loops).  Machine floats are only carried through the parser, never
computed with, so their payload is modelled by `Rat`.
-/

namespace Liquid

/-- Scalar values of the external value model (string/integer/float/boolean). -/
inductive Scalar where
  | str (s : String)
  | int (i : Int)
  | float (f : Rat)
  | bool (b : Bool)
deriving DecidableEq, Repr

/-- The dynamic value model; only scalars are needed by the parser and the
filter-chain evaluator modelled here. -/
abbrev Value := Scalar

/-- The error type of `super::error::Error`: a message, optionally extended
with keyed context (`.context(key, value)`) or wrapped around a cause
(`.chain(msg)` from `ResultLiquidChainExt`). -/
inductive Error where
  | withMsg (msg : String)
  | context (e : Error) (key : String) (value : String)
  | chained (msg : String) (cause : Error)
deriving DecidableEq, Repr

/-- Comparison operators of `token.rs`. -/
inductive ComparisonOperator where
  | equals
  | notEquals
  | lessThan
  | greaterThan
  | lessThanEquals
  | greaterThanEquals
  | contains
deriving DecidableEq, Repr

/-- `Token` from `token.rs`. -/
inductive Token where
  | pipe
  | dot
  | colon
  | comma
  | openSquare
  | closeSquare
  | openRound
  | closeRound
  | question
  | dash
  | assignment
  | identifier (s : String)
  | stringLiteral (s : String)
  | integerLiteral (i : Int)
  | floatLiteral (f : Rat)
  | booleanLiteral (b : Bool)
  | dotDot
  | comparison (op : ComparisonOperator)
  | and
  | or
deriving DecidableEq, Repr

/-- `fmt::Display for ComparisonOperator`. -/
def ComparisonOperator.display : ComparisonOperator → String
  | .equals => "=="
  | .notEquals => "!="
  | .lessThanEquals => "<="
  | .greaterThanEquals => ">="
  | .lessThan => "<"
  | .greaterThan => ">"
  | .contains => "contains"

/-- `fmt::Display for Token`: the canonical display form used verbatim in
error messages. -/
def Token.display : Token → String
  | .pipe => "|"
  | .dot => "."
  | .colon => ":"
  | .comma => ","
  | .openSquare => "["
  | .closeSquare => "]"
  | .openRound => "("
  | .closeRound => ")"
  | .question => "?"
  | .dash => "-"
  | .dotDot => ".."
  | .assignment => "="
  | .and => "and"
  | .or => "or"
  | .comparison x => x.display
  | .identifier x => x
  | .stringLiteral x => x
  | .integerLiteral x => toString x
  | .floatLiteral x => toString x
  | .booleanLiteral x => toString x

/-- `unexpected_token_error_string` from `parser.rs`:
`Error::with_msg(format!("Expected {}, found `{}`", expected, actual))`
with `actual` defaulting to `"nothing"` when the stream was exhausted. -/
def unexpected_token_error_string (expected : String) (actual : Option String) : Error :=
  .withMsg ("Expected " ++ expected ++ ", found `" ++ actual.getD "nothing" ++ "`")

/-- `unexpected_token_error` from `parser.rs`, taking the offending token's
display form when present. -/
def unexpected_token_error (expected : String) (actual : Option Token) : Error :=
  unexpected_token_error_string expected (actual.map Token.display)

/-- `Expression` / `Variable` from the interpreter: a literal value or a
path expression (root scalar plus ordered index accessors, each itself an
expression).  `Variable::with_literal(root)` is `.var root []`. -/
inductive Expression where
  | literal (v : Scalar)
  | var (root : Scalar) (indexes : List Expression)
deriving Repr

/-- Rust's `str::split('.')` on the character list of a string: splits at
every `'.'`, keeping empty segments, and always yields at least one
segment. -/
def splitDotAux : List Char → List Char → List String
  | [], acc => [String.mk acc.reverse]
  | c :: rest, acc =>
    if c = '.' then String.mk acc.reverse :: splitDotAux rest []
    else splitDotAux rest (c :: acc)

/-- Rust's `id.split('.')` as used by `Token::to_arg`. -/
def splitDot (s : String) : List String := splitDotAux s.toList []

/-- `Token::to_arg` from `token.rs`: literal tokens become literal
expressions; an identifier is split on `'.'` into a root segment plus
literal field accessors; every other token is an `UnexpectedToken` error. -/
def Token.to_arg : Token → Except Error Expression
  | .integerLiteral f => .ok (.literal (.int f))
  | .floatLiteral f => .ok (.literal (.float f))
  | .stringLiteral s => .ok (.literal (.str s))
  | .booleanLiteral b => .ok (.literal (.bool b))
  | .identifier id =>
    match splitDot id with
    | [] => .ok (.var (.str id) [])
    | r :: rest => .ok (.var (.str r) (rest.map (fun s => Expression.literal (.str s))))
  | x => .error (unexpected_token_error "string | number | boolean | identifier" (some x))

/-- `Token::to_value` from `token.rs`. -/
def Token.to_value : Token → Except Error Value
  | .stringLiteral x => .ok (.str x)
  | .integerLiteral x => .ok (.int x)
  | .floatLiteral x => .ok (.float x)
  | .booleanLiteral x => .ok (.bool x)
  | x => .error (unexpected_token_error "string | number | boolean" (some x))

/-- `FilterCall`: a filter name plus its ordered argument expressions. -/
structure FilterCall where
  name : String
  args : List Expression
deriving Repr

/-- `FilterChain`: one entry expression plus ordered filter calls. -/
structure FilterChain where
  entry : Expression
  filters : List FilterCall
deriving Repr

/-- `Element` from the lexer: a top-level template fragment. -/
inductive Element where
  | expression (tokens : List Token) (raw : String)
  | tag (tokens : List Token) (raw : String)
  | raw (x : String)
deriving Repr

/-- The outcome of running a piece of Rust code that may return `Ok`,
return `Err`, or abort uncatchably (`panic`). -/
inductive RResult (α : Type) where
  | panic
  | err (e : Error)
  | ok (a : α)
deriving Repr

/-- Map over the `ok` outcome. -/
def RResult.map {α β : Type} (f : α → β) : RResult α → RResult β
  | .panic => .panic
  | .err e => .err e
  | .ok a => .ok (f a)

/-- The tree of renderable nodes produced by parsing.  `ext` is the shape of
nodes produced by registered tag/block handlers used in this development:
it records exactly the inputs the parser handed to the handler. -/
inductive Renderable where
  | text (s : String)
  | varNode (root : Scalar) (indexes : List Expression)
  | output (chain : FilterChain)
  | ext (name : String) (args : List Token) (children : List Element)
deriving Repr

/-- `LiquidOptions`: the extension registry, an immutable pair of name-keyed
lookup tables of tag and block parsers. -/
structure LiquidOptions where
  tags : List (String × (String → List Token → RResult Renderable))
  blocks : List (String × (String → List Token → List Element → RResult Renderable))

/-- `parse_indexes` from `parser.rs`: greedily consumes `. identifier` or
`[ value ]` accessor groups from the front of the slice.  The Rust loop only
enters the `Dot` arm when more than one token remains and the `OpenSquare`
arm when more than two remain; any other head token (including a truncated
accessor at the end of the slice) falls through to `return Ok(indexes)`.
Both error paths report `tokens[0]` (the accessor token itself) as `actual`. -/
def parse_indexes : List Token → Except Error (List Expression)
  | .dot :: t1 :: rest =>
    match t1 with
    | .identifier x =>
      match parse_indexes rest with
      | .ok more => .ok (Expression.literal (.str x) :: more)
      | .error e => .error e
    | _ => .error (unexpected_token_error "identifier" (some Token.dot))
  | .openSquare :: t1 :: t2 :: rest =>
    match (match t1 with
           | .stringLiteral x => Except.ok (Expression.literal (.str x))
           | .integerLiteral x => Except.ok (Expression.literal (.int x))
           | .identifier x => Except.ok (Expression.var (.str x) [])
           | _ => Except.error (unexpected_token_error "string | whole number | identifier"
                    (some Token.openSquare))) with
    | .error e => .error e
    | .ok index =>
      if t2 = Token.closeSquare then
        match parse_indexes rest with
        | .ok more => .ok (index :: more)
        | .error e => .error e
      else .error (unexpected_token_error "`]`" (some Token.openSquare))
  | _ => .ok []

mutual

/-- The filter loop of `parse_output` (`parser.rs` lines 148–190), starting
at the first `|` (or the end of the stream): each iteration expects `|`
(via `expect`, with its `UnexpectedToken` error on any other token) and
then reads one filter group.  The Rust `while iter.peek() != None` loop is
decomposed into three mutually recursive functions, one per position in
the loop body; each consumes tokens exactly as the shared iterator does. -/
def parse_filters : List Token → Except Error (List FilterCall)
  | [] => .ok []
  | t :: rest =>
    if t = Token.pipe then parse_filters_name rest
    else .error (unexpected_token_error ("`" ++ Token.pipe.display ++ "`") (some t))

/-- After a consumed `|`: read the filter name (an identifier, else an
`UnexpectedToken` error); a following `|` or end of stream records a
zero-argument filter and continues the loop, otherwise `:` is expected
(via `expect`) and the argument list follows. -/
def parse_filters_name : List Token → Except Error (List FilterCall)
  | .identifier name :: rest2 =>
    (match rest2 with
     | [] => .ok [⟨name, []⟩]
     | .pipe :: rest3 =>
       match parse_filters_name rest3 with
       | .ok filters => .ok (⟨name, []⟩ :: filters)
       | .error e => .error e
     | c :: rest3 =>
       if c = Token.colon then parse_filters_args name [] rest3
       else .error (unexpected_token_error ("`" ++ Token.colon.display ++ "`") (some c)))
  | x :: _ => .error (unexpected_token_error "identifier" (some x))
  | [] => .error (unexpected_token_error "identifier" none)

/-- The argument loop after a filter's `:` (`parser.rs` lines 169–187):
while the next token is neither `|` nor the end of the stream, read one
argument via `to_arg` (propagating its failure), then require the
separator after it to be `,` (consumed) or `|`/end of stream (ends the
list); any other separator is an `UnexpectedToken` error naming it.  When
the list ends the filter is recorded and the outer loop continues: at `|`
the loop's `expect` consumes it and the next name follows. -/
def parse_filters_args (name : String) (args : List Expression) :
    List Token → Except Error (List FilterCall)
  | [] => .ok [⟨name, args⟩]
  | .pipe :: rest =>
    match parse_filters_name rest with
    | .ok filters => .ok (⟨name, args⟩ :: filters)
    | .error e => .error e
  | t :: rest =>
    match t.to_arg with
    | .error e => .error e
    | .ok arg =>
      match rest with
      | .comma :: rest2 => parse_filters_args name (args ++ [arg]) rest2
      | .pipe :: rest2 =>
        match parse_filters_name rest2 with
        | .ok filters => .ok (⟨name, args ++ [arg]⟩ :: filters)
        | .error e => .error e
      | [] => .ok [⟨name, args ++ [arg]⟩]
      | x :: _ => .error (unexpected_token_error "`,` | `|`" (some x))

end

/-- The `first_pipe` computation of `parse_output`: the index of the first
`|` token, or the slice's length when there is none
(`iter().enumerate().filter_map(..).next().unwrap_or(tokens.len())`). -/
def firstPipeIdx : List Token → Nat
  | [] => 0
  | t :: rest => if t = Token.pipe then 0 else firstPipeIdx rest + 1

/-- `parse_output` from `parser.rs`: split the token slice at the first `|`
(or the end of input); classify the first token as the entry, appending
`.`/`[` accessors up to the first pipe when the entry is a variable; then
parse the filter groups.  Indexing `tokens[0]` aborts on an empty slice. -/
def parse_output (tokens : List Token) : RResult FilterChain :=
  match tokens with
  | [] => .panic
  | t0 :: _ =>
    let first_pipe := firstPipeIdx tokens
    match t0.to_arg with
    | .error e => .err e
    | .ok entry =>
      let entryStep : Except Error Expression :=
        match entry with
        | .var root idx =>
          match parse_indexes ((tokens.drop 1).take (first_pipe - 1)) with
          | .ok more => .ok (.var root (idx ++ more))
          | .error e => .error e
        | e => .ok e
      match entryStep with
      | .error e => .err e
      | .ok entry =>
        match parse_filters (tokens.drop first_pipe) with
        | .ok filters => .ok ⟨entry, filters⟩
        | .error e => .err e

/-- `parse_expression` from `parser.rs`: an identifier immediately followed
by `.` or `[` becomes a bare variable node with its accessor chain (any
remaining tokens are ignored); otherwise an identifier naming a registered
tag dispatches to that tag's parser; an empty slice is an error; everything
else delegates to `parse_output`. -/
def parse_expression (tokens : List Token) (options : LiquidOptions) : RResult Renderable :=
  match tokens with
  | .identifier x :: t1 :: rest =>
    if t1 = Token.dot ∨ t1 = Token.openSquare then
      match (Token.identifier x).to_arg with
      | .ok (.var root idx) =>
        match parse_indexes (t1 :: rest) with
        | .ok more => .ok (.varNode root (idx ++ more))
        | .error e => .err e
      | _ => .panic
    else
      match options.tags.lookup x with
      | some p => p x (t1 :: rest)
      | none => (parse_output tokens).map Renderable.output
  | [.identifier x] =>
    match options.tags.lookup x with
    | some p => p x []
    | none => (parse_output tokens).map Renderable.output
  | [] => .err (unexpected_token_error "expression" none)
  | _ => (parse_output tokens).map Renderable.output

/-- The body-collection loop of `parse_tag` (`parser.rs` lines 223–240):
advance the fragment cursor collecting every fragment into the child
buffer; a tag fragment whose leading token equals the opening token `tag`
increments the nesting counter, one equal to `end_tag` decrements it when
positive, and one equal to `end_tag` at counter zero stops collection,
consuming that fragment without buffering it.  Returns the child buffer
together with the remaining cursor; `none` models the `tokens[0]` abort on
a tag fragment with no tokens. -/
def collect (tag end_tag : Token) : Nat → List Element → Option (List Element × List Element)
  | _, [] => some ([], [])
  | depth, e :: es =>
    match e with
    | .tag toks _ =>
      match toks with
      | [] => none
      | t0 :: _ =>
        if t0 = tag then
          (collect tag end_tag (depth + 1) es).map (fun p => (e :: p.1, p.2))
        else if t0 = end_tag ∧ depth > 0 then
          (collect tag end_tag (depth - 1) es).map (fun p => (e :: p.1, p.2))
        else if t0 = end_tag ∧ depth = 0 then
          some ([], es)
        else
          (collect tag end_tag depth es).map (fun p => (e :: p.1, p.2))
    | _ => (collect tag end_tag depth es).map (fun p => (e :: p.1, p.2))

/-- The depth bookkeeping of `collect` in isolation: scans a fragment list,
incrementing at `tag`-headed tag fragments and decrementing at positive
depth for `end_tag`-headed ones; returns the final depth, or `none` if the
scan would stop early (an `end_tag` fragment at depth zero) or abort (a
tag fragment with no tokens). -/
def scanDepth (tag end_tag : Token) : Nat → List Element → Option Nat
  | depth, [] => some depth
  | depth, e :: es =>
    match e with
    | .tag toks _ =>
      match toks with
      | [] => none
      | t0 :: _ =>
        if t0 = tag then scanDepth tag end_tag (depth + 1) es
        else if t0 = end_tag ∧ depth > 0 then scanDepth tag end_tag (depth - 1) es
        else if t0 = end_tag ∧ depth = 0 then none
        else scanDepth tag end_tag depth es
    | _ => scanDepth tag end_tag depth es

/-- `parse_tag` from `parser.rs`: the first token names the construct.  A
registered tag name dispatches immediately with the remaining tokens and
does not move the fragment cursor; a registered block name `x` collects the
body up to the un-nested closing tag `end` + `x` and dispatches the block's
parser with the argument tokens and the child buffer; anything else is a
"Tag is not supported" error carrying the tag's display under the key
`tag`.  The result is paired with the cursor position after the call;
indexing `tokens[0]` aborts on an empty token slice. -/
def parse_tag (iter : List Element) (tokens : List Token) (options : LiquidOptions) :
    RResult (Renderable × List Element) :=
  match tokens with
  | [] => .panic
  | tag :: rest =>
    match tag with
    | .identifier x =>
      match options.tags.lookup x with
      | some p => (p x rest).map (fun r => (r, iter))
      | none =>
        match options.blocks.lookup x with
        | some p =>
          let end_tag := Token.identifier ("end" ++ x)
          match collect tag end_tag 0 iter with
          | none => .panic
          | some (children, remaining) => (p x rest children).map (fun r => (r, remaining))
        | none =>
          .err (.context (.withMsg "Tag is not supported") "tag" tag.display)
    | _ => .err (.context (.withMsg "Tag is not supported") "tag" tag.display)

/-- The remaining cursor returned by `collect` is never longer than the
input cursor. -/
theorem collect_remaining_length (tag end_tag : Token) :
    ∀ (depth : Nat) (iter children remaining : List Element),
    collect tag end_tag depth iter = some (children, remaining) →
    remaining.length ≤ iter.length := by
  intro depth iter
  induction iter generalizing depth with
  | nil =>
    intro children remaining h
    simp only [collect] at h
    cases h
    simp
  | cons e es ih =>
    intro children remaining h
    simp only [collect] at h
    cases e with
    | tag toks s =>
      cases toks with
      | nil => simp at h
      | cons t0 ts =>
        simp only at h
        split at h
        · cases hrec : collect tag end_tag (depth + 1) es with
          | none => rw [hrec] at h; cases h
          | some p =>
            rw [hrec] at h
            cases h
            have := ih (depth + 1) p.1 p.2 hrec
            simp
            omega
        · split at h
          · cases hrec : collect tag end_tag (depth - 1) es with
            | none => rw [hrec] at h; cases h
            | some p =>
              rw [hrec] at h
              cases h
              have := ih (depth - 1) p.1 p.2 hrec
              simp
              omega
          · split at h
            · cases h
              simp
            · cases hrec : collect tag end_tag depth es with
              | none => rw [hrec] at h; cases h
              | some p =>
                rw [hrec] at h
                cases h
                have := ih depth p.1 p.2 hrec
                simp
                omega
    | expression toks s =>
      simp only at h
      cases hrec : collect tag end_tag depth es with
      | none => rw [hrec] at h; cases h
      | some p =>
        rw [hrec] at h
        cases h
        have := ih depth p.1 p.2 hrec
        simp
        omega
    | raw s =>
      simp only at h
      cases hrec : collect tag end_tag depth es with
      | none => rw [hrec] at h; cases h
      | some p =>
        rw [hrec] at h
        cases h
        have := ih depth p.1 p.2 hrec
        simp
        omega

/-- The cursor position returned by `parse_tag` is never further back than
where it started. -/
theorem parse_tag_remaining_length (iter : List Element) (tokens : List Token)
    (options : LiquidOptions) :
    ∀ r remaining, parse_tag iter tokens options = .ok (r, remaining) →
    remaining.length ≤ iter.length := by
  intro r remaining h
  rw [parse_tag.eq_def] at h
  cases tokens with
  | nil => cases h
  | cons tag rest =>
    cases tag <;> simp only at h <;> try cases h
    case identifier x =>
      cases htag : options.tags.lookup x with
      | some p =>
        rw [htag] at h
        simp only at h
        cases hp : p x rest <;> rw [hp] at h <;> simp [RResult.map] at h
        rcases h with ⟨h1, h2⟩
        subst h2
        exact le_refl _
      | none =>
        rw [htag] at h
        cases hblk : options.blocks.lookup x with
        | some p =>
          rw [hblk] at h
          simp only at h
          cases hc : collect (Token.identifier x) (Token.identifier ("end" ++ x)) 0 iter with
          | none => rw [hc] at h; cases h
          | some pr =>
            rw [hc] at h
            obtain ⟨children, remaining2⟩ := pr
            simp only at h
            cases hp : p x rest children <;> rw [hp] at h <;> simp [RResult.map] at h
            rcases h with ⟨h1, h2⟩
            subst h2
            exact collect_remaining_length _ _ 0 iter children remaining2 hc
        | none => rw [hblk] at h; cases h

/-- Top-level `parse` from `parser.rs`: iterate the fragment stream once,
dispatching each fragment to raw-text passthrough, `parse_expression` or
`parse_tag` (which advances the shared cursor past the block body it
collects), accumulating the nodes in order and stopping at the first
failure. -/
def parse (elements : List Element) (options : LiquidOptions) : RResult (List Renderable) :=
  match elements with
  | [] => .ok []
  | e :: rest =>
    match e with
    | .raw x => (parse rest options).map (fun l => Renderable.text x :: l)
    | .expression toks _ =>
      match parse_expression toks options with
      | .panic => .panic
      | .err er => .err er
      | .ok r => (parse rest options).map (fun l => r :: l)
    | .tag toks _ =>
      match h : parse_tag rest toks options with
      | .panic => .panic
      | .err er => .err er
      | .ok (r, remaining) => (parse remaining options).map (fun l => r :: l)
termination_by elements.length
decreasing_by
  all_goals try have hlen := parse_tag_remaining_length rest toks options r remaining h
  all_goals try simp
  all_goals omega

/-- `BlockSplit` from `parser.rs`: the optional trailing part of a block
split. -/
structure BlockSplit where
  delimiter : String
  args : List Token
  trailing : List Element

/-- The scanning loop of `split_block` (`parser.rs` lines 313–340), with
the stack of expected closing names carried explicitly (the Rust `Vec`'s
top is the list head here).  A tag fragment opening a registered block
pushes `"end" + name`; one matching the stack top pops; one whose leading
identifier is in the delimiter set while the stack is empty is the split
point, with everything before it as leading and everything from it on
(inclusive) as trailing; `none` models the `args[0]` abort on a tag
fragment with no tokens. -/
def split_block_from (delimiters : List String) (options : LiquidOptions)
    (stack : List String) :
    List Element → Option (List Element × Option BlockSplit)
  | [] => some ([], none)
  | e :: es =>
    match e with
    | .tag args _ =>
      match args with
      | [] => none
      | t0 :: _ =>
        match t0 with
        | .identifier name =>
          if (options.blocks.lookup name).isSome then
            (split_block_from delimiters options (("end" ++ name) :: stack) es).map
              (fun p => (e :: p.1, p.2))
          else if stack.head? = some name then
            (split_block_from delimiters options stack.tail es).map
              (fun p => (e :: p.1, p.2))
          else if stack = [] ∧ name ∈ delimiters then
            some ([], some ⟨name, args, e :: es⟩)
          else
            (split_block_from delimiters options stack es).map (fun p => (e :: p.1, p.2))
        | _ => (split_block_from delimiters options stack es).map (fun p => (e :: p.1, p.2))
    | _ => (split_block_from delimiters options stack es).map (fun p => (e :: p.1, p.2))

/-- `split_block` from `parser.rs`: scan for a top-level delimiter fragment
starting with an empty stack of expected closing names. -/
def split_block (tokens : List Element) (delimiters : List String)
    (options : LiquidOptions) : Option (List Element × Option BlockSplit) :=
  split_block_from delimiters options [] tokens

/-- The runtime context as seen by `Output::apply_filters`
(`src/src/interpreter/output.rs`): named filter lookup returning a callable
mapping the running value and the evaluated arguments to a value or
failure. -/
structure Context where
  filters : List (String × (Value → List Value → Except Error Value))

/-- `Context::get_filter`. -/
def Context.get_filter (context : Context) (name : String) :
    Option (Value → List Value → Except Error Value) :=
  context.filters.lookup name

/-- Modelled from the spec: the `Argument` type of the old interpreter is
not under `src/` (only `output.rs`, its consumer, is); per the spec it is
an expression resolved against the context (variable lookup or literal),
which `apply_filters` only observes through its fallible evaluation, so it
is embedded as that evaluation function. -/
def Argument := Context → Except Error Value

/-- `FilterPrototype` from `output.rs`: a filter name plus argument
expressions. -/
structure FilterPrototype where
  name : String
  arguments : List Argument

/-- `Output` from `output.rs`: an entry argument plus the filters to thread
it through. -/
structure Output where
  entry : Argument
  filters : List FilterPrototype

/-- `Output::apply_filters` from `output.rs`: evaluate the entry, then fold
the filter list over it — looking each filter up by name (`Unsupported
filter` with the name as context when absent), evaluating all argument
expressions (`collect` propagates the first failure), invoking the filter
and wrapping any failure it raises with the context `Filter error`. -/
def Output.apply_filters (o : Output) (context : Context) : Except Error Value := do
  let entry ← o.entry context
  o.filters.foldlM
    (fun entry filter =>
      match context.get_filter filter.name with
      | none => .error (.context (.withMsg "Unsupported filter") "filter" filter.name)
      | some f => do
        let arguments ← filter.arguments.mapM (fun a => a context)
        match f entry arguments with
        | .ok v => .ok v
        | .error e => .error (.chained "Filter error" e))
    entry

/-- Evaluation of an argument list, worded after the spec: each argument
expression is evaluated against the context in order and any failure
propagates. -/
def evaluateArguments (context : Context) : List Argument → Except Error (List Value)
  | [] => .ok []
  | a :: rest =>
    match a context with
    | .error e => .error e
    | .ok v =>
      match evaluateArguments context rest with
      | .error e => .error e
      | .ok vs => .ok (v :: vs)

/-- The filter-chain evaluation loop, worded after the spec's claim: for
each filter call in order, the implementation is looked up by name (failing
with "Unsupported filter" carrying the name if absent), every argument is
evaluated (propagating failures), the filter is invoked on the running
value, its result replaces the running value, and a failure inside the
filter is wrapped with "Filter error"; the final running value is
returned. -/
def applyFiltersSpecFrom (context : Context) (current : Value) :
    List FilterPrototype → Except Error Value
  | [] => .ok current
  | filter :: rest =>
    match context.get_filter filter.name with
    | none => .error (.context (.withMsg "Unsupported filter") "filter" filter.name)
    | some f =>
      match evaluateArguments context filter.arguments with
      | .error e => .error e
      | .ok arguments =>
        match f current arguments with
        | .error e => .error (.chained "Filter error" e)
        | .ok v => applyFiltersSpecFrom context v rest

/-- `apply_filters` as the spec words it: resolve the entry first, then
thread the running value through each filter in order. -/
def applyFiltersSpec (o : Output) (context : Context) : Except Error Value :=
  match o.entry context with
  | .error e => .error e
  | .ok entry => applyFiltersSpecFrom context entry o.filters

/-- A block handler that records exactly what the parser handed it, in the
manner of the `null_block` test helper (which returns a fixed node); the
recorded inputs make the collected child buffer observable. -/
def harvest_block : String → List Token → List Element → RResult Renderable :=
  fun x args children => .ok (.ext x args children)

/-- A registry with the single block type `t` (and no tags), as in the
nesting tests. -/
def optionsT : LiquidOptions := ⟨[], [("t", harvest_block)]⟩

/-- A registry with the single block type `for` (and no tags), as in the
`split_block` tests. -/
def optionsFor : LiquidOptions := ⟨[], [("for", harvest_block)]⟩

/-- An opening fragment of the block type `t`. -/
def openT : Element := .tag [Token.identifier "t"] "t"

/-- A closing fragment of the block type `t`. -/
def closeT : Element := .tag [Token.identifier "endt"] "endt"

/- ------------------------------------------------------------------ -/
/- Helper lemmas shared by the claim theorems.                         -/
/- ------------------------------------------------------------------ -/

theorem firstPipeIdx_eq_length_of_not_mem :
    ∀ (tokens : List Token), Token.pipe ∉ tokens → firstPipeIdx tokens = tokens.length := by
  intro tokens h
  induction tokens with
  | nil => rfl
  | cons t rest ih =>
    simp only [firstPipeIdx]
    rw [if_neg (by intro he; exact h (he ▸ List.mem_cons_self t rest))]
    simp only [List.length_cons]
    rw [ih (fun hm => h (List.mem_cons_of_mem t hm))]

theorem to_arg_identifier_shape (x : String) :
    ∃ root idx, (Token.identifier x).to_arg = .ok (.var root idx) := by
  rcases h : splitDot x with _ | ⟨r, rest⟩ <;> simp [Token.to_arg, h]

theorem RResult.map_ne_panic {α β : Type} (r : RResult α) (f : α → β) (h : r ≠ .panic) :
    RResult.map f r ≠ .panic := by
  cases r with
  | panic => exact absurd rfl h
  | err e => intro hc; cases hc
  | ok a => intro hc; cases hc

theorem lookup_mem {β : Type} :
    ∀ (l : List (String × β)) (k : String) (v : β),
    l.lookup k = some v → (k, v) ∈ l := by
  intro l k v h
  induction l with
  | nil => cases h
  | cons p rest ih =>
    obtain ⟨pk, pv⟩ := p
    simp only [List.lookup] at h
    split at h
    · rename_i hbeq
      cases h
      have hk : k = pk := beq_iff_eq.mp hbeq
      rw [hk]
      exact List.mem_cons_self _ _
    · exact List.mem_cons_of_mem _ (ih h)

/- ------------------------------------------------------------------ -/
/- Claim theorems.                                                     -/
/- ------------------------------------------------------------------ -/

/-- C3: `parse_output` splits at the first pipe; on the token sequence of
`"abc | def:'1',2,'3' | blabla"` it yields entry variable `abc` with
filters `def("1", 2.0, "3")` then `blabla()`, on the token sequence of
`"abc[0] | def:'1',2,'3' | blabla"` it yields entry `abc` indexed by
literal integer `0` with the same filters, and an input with no pipe
yields a chain with an empty filter list. -/
theorem C3_parse_output_filter_chain :
    parse_output [Token.identifier "abc", Token.pipe, Token.identifier "def", Token.colon,
        Token.stringLiteral "1", Token.comma, Token.floatLiteral 2, Token.comma,
        Token.stringLiteral "3", Token.pipe, Token.identifier "blabla"]
      = .ok ⟨Expression.var (Scalar.str "abc") [],
             [⟨"def", [Expression.literal (Scalar.str "1"), Expression.literal (Scalar.float 2),
                       Expression.literal (Scalar.str "3")]⟩,
              ⟨"blabla", []⟩]⟩
    ∧ parse_output [Token.identifier "abc", Token.openSquare, Token.integerLiteral 0,
        Token.closeSquare, Token.pipe, Token.identifier "def", Token.colon,
        Token.stringLiteral "1", Token.comma, Token.floatLiteral 2, Token.comma,
        Token.stringLiteral "3", Token.pipe, Token.identifier "blabla"]
      = .ok ⟨Expression.var (Scalar.str "abc") [Expression.literal (Scalar.int 0)],
             [⟨"def", [Expression.literal (Scalar.str "1"), Expression.literal (Scalar.float 2),
                       Expression.literal (Scalar.str "3")]⟩,
              ⟨"blabla", []⟩]⟩
    ∧ ∀ (tokens : List Token) (chain : FilterChain), Token.pipe ∉ tokens →
        parse_output tokens = .ok chain → chain.filters = [] := by
  refine ⟨rfl, rfl, ?_⟩
  intro tokens chain hnp h
  cases tokens with
  | nil => simp [parse_output] at h
  | cons t0 tl =>
    have hfp := firstPipeIdx_eq_length_of_not_mem (t0 :: tl) hnp
    simp only [parse_output, hfp, List.drop_length] at h
    rw [show ((t0 :: tl).drop 1).take ((t0 :: tl).length - 1) = tl by simp] at h
    simp only [parse_filters] at h
    split at h
    · cases h
    · split at h
      · cases h
      · cases h
        rfl

/-- C3 witness: a concrete pipe-free input yields an empty filter list. -/
theorem C3_witness :
    Token.pipe ∉ [Token.identifier "abc"]
    ∧ (FilterChain.mk (Expression.var (Scalar.str "abc") []) []).filters = [] :=
  ⟨by decide,
   C3_parse_output_filter_chain.2.2 [Token.identifier "abc"]
     ⟨Expression.var (Scalar.str "abc") [], []⟩ (by decide) rfl⟩

/-- C4: `parse_output` rejects malformed filter shapes with
`UnexpectedToken` errors naming the offending token: a non-identifier
after a pipe (`"abc | '1','2','3' | blabla"`) names `identifier` expected
and `1` actual; arguments without a `:` (`"abc | def '1',2,'3' | blabla"`)
name `:` expected and `1` actual; and inside an argument list a separator
other than `,` or `|` after an argument is rejected naming that
separator. -/
theorem C4_parse_output_malformed_filters :
    parse_output [Token.identifier "abc", Token.pipe, Token.stringLiteral "1", Token.comma,
        Token.stringLiteral "2", Token.comma, Token.stringLiteral "3", Token.pipe,
        Token.identifier "blabla"]
      = .err (.withMsg "Expected identifier, found `1`")
    ∧ parse_output [Token.identifier "abc", Token.pipe, Token.identifier "def",
        Token.stringLiteral "1", Token.comma, Token.floatLiteral 2, Token.comma,
        Token.stringLiteral "3", Token.pipe, Token.identifier "blabla"]
      = .err (.withMsg "Expected `:`, found `1`")
    ∧ ∀ (name : String) (args : List Expression) (t sep : Token) (rest : List Token)
        (arg : Expression),
        t.to_arg = .ok arg → sep ≠ Token.comma → sep ≠ Token.pipe →
        parse_filters_args name args (t :: sep :: rest)
          = .error (unexpected_token_error "`,` | `|`" (some sep)) := by
  refine ⟨rfl, rfl, ?_⟩
  intro name args t sep rest arg hto hc hp
  rw [parse_filters_args.eq_def]
  split
  · rename_i heq
    cases heq
  · rename_i rest' heq
    have ht : t = Token.pipe := (List.cons.inj heq).1
    rw [ht] at hto
    simp [Token.to_arg] at hto
  · rename_i hcne heq
    obtain ⟨h1, h2⟩ := List.cons.inj heq
    rw [h1] at hto
    subst h2
    rw [hto]
    simp only []

/-- C4 witness: the separator rule at a concrete input (`.` between
arguments). -/
theorem C4_witness :
    (Token.stringLiteral "1").to_arg = .ok (Expression.literal (Scalar.str "1"))
    ∧ Token.dot ≠ Token.comma
    ∧ Token.dot ≠ Token.pipe
    ∧ parse_filters_args "def" [] [Token.stringLiteral "1", Token.dot]
        = .error (unexpected_token_error "`,` | `|`" (some Token.dot)) :=
  ⟨rfl, by decide, by decide,
   C4_parse_output_malformed_filters.2.2 "def" [] (Token.stringLiteral "1") Token.dot []
     (Expression.literal (Scalar.str "1")) rfl (by decide) (by decide)⟩

/-- C5 counterexample: a slice truncated right after a `.` accessor makes
`parse_indexes` return success (the collected indexes so far), not an
`UnexpectedToken` error; and when an error is raised for `.` followed by a
non-identifier, its `actual` is the accessor token `.` itself, not the
offending token (here `:`). -/
theorem C5_counterexample :
    parse_indexes [Token.dot] = .ok []
    ∧ parse_indexes [Token.dot, Token.colon]
        = .error (.withMsg "Expected identifier, found `.`") :=
  ⟨rfl, rfl⟩

/-- C5 as amended: `parse_indexes` raises its `UnexpectedToken` errors only
when the accessor has enough following tokens (`.` with at least one more,
`[` with at least two more) — a slice truncated at or near the `.` or `[`
returns successfully instead — and each error's `actual` names the accessor
token that introduced the malformed group (`.` or `[`), not the offending
token. -/
theorem C5_parse_indexes_errors :
    (∀ (t : Token) (rest : List Token), (∀ s, t ≠ Token.identifier s) →
       parse_indexes (Token.dot :: t :: rest)
         = .error (unexpected_token_error "identifier" (some Token.dot)))
    ∧ (∀ (t1 t2 : Token) (rest : List Token),
       (∀ s, t1 ≠ Token.stringLiteral s) → (∀ i, t1 ≠ Token.integerLiteral i) →
       (∀ s, t1 ≠ Token.identifier s) →
       parse_indexes (Token.openSquare :: t1 :: t2 :: rest)
         = .error (unexpected_token_error "string | whole number | identifier"
             (some Token.openSquare)))
    ∧ (∀ (t1 t2 : Token) (rest : List Token),
       ((∃ s, t1 = Token.stringLiteral s) ∨ (∃ i, t1 = Token.integerLiteral i) ∨
        (∃ s, t1 = Token.identifier s)) →
       t2 ≠ Token.closeSquare →
       parse_indexes (Token.openSquare :: t1 :: t2 :: rest)
         = .error (unexpected_token_error "`]`" (some Token.openSquare)))
    ∧ parse_indexes [Token.dot] = .ok []
    ∧ parse_indexes [Token.openSquare] = .ok []
    ∧ (∀ t, parse_indexes [Token.openSquare, t] = .ok []) := by
  refine ⟨?_, ?_, ?_, rfl, rfl, ?_⟩
  · intro t rest hni
    cases t <;> simp [parse_indexes]
    exact absurd rfl (hni _)
  · intro t1 t2 rest hns hni hnid
    cases t1 <;> simp [parse_indexes]
    · exact absurd rfl (hnid _)
    · exact absurd rfl (hns _)
    · exact absurd rfl (hni _)
  · intro t1 t2 rest hshape hne
    rcases hshape with ⟨s, rfl⟩ | ⟨i, rfl⟩ | ⟨s, rfl⟩ <;>
      simp [parse_indexes, if_neg hne]
  · intro t
    cases t <;> simp [parse_indexes]

/-- C5 witness: the amended error and success rules at concrete inputs. -/
theorem C5_witness :
    parse_indexes [Token.dot, Token.colon]
      = .error (unexpected_token_error "identifier" (some Token.dot))
    ∧ parse_indexes [Token.openSquare, Token.floatLiteral 1, Token.closeSquare]
      = .error (unexpected_token_error "string | whole number | identifier"
          (some Token.openSquare))
    ∧ parse_indexes [Token.openSquare, Token.integerLiteral 0, Token.comma]
      = .error (unexpected_token_error "`]`" (some Token.openSquare))
    ∧ parse_indexes [Token.openSquare, Token.integerLiteral 0] = .ok [] :=
  ⟨C5_parse_indexes_errors.1 Token.colon [] (by intro s h; cases h),
   C5_parse_indexes_errors.2.1 (Token.floatLiteral 1) Token.closeSquare []
     (by intro s h; cases h) (by intro i h; cases h) (by intro s h; cases h),
   C5_parse_indexes_errors.2.2.1 (Token.integerLiteral 0) Token.comma []
     (Or.inr (Or.inl ⟨0, rfl⟩)) (by decide),
   C5_parse_indexes_errors.2.2.2.2.2 (Token.integerLiteral 0)⟩

/-- C6 counterexample: `parse_output` on the empty token slice aborts
uncatchably (the Rust `tokens[0]` indexing panics) instead of returning a
typed result. -/
theorem C6_counterexample : parse_output [] = .panic := rfl

/-- C6 as amended: `parse_expression` returns a typed result on the empty
slice (the `UnexpectedToken` error with expected `expression` and actual
`nothing`) and never aborts uncatchably provided the registered tag
handlers do not; `parse_output` never aborts on any non-empty slice but
panics on the empty one. -/
theorem C6_typed_results :
    (∀ options, parse_expression [] options
       = .err (unexpected_token_error "expression" none))
    ∧ (∀ (t : Token) (rest : List Token), parse_output (t :: rest) ≠ .panic)
    ∧ (∀ (tokens : List Token) (options : LiquidOptions),
       (∀ name p, (name, p) ∈ options.tags → ∀ a b, p a b ≠ .panic) →
       parse_expression tokens options ≠ .panic) := by
  have hout : ∀ (t : Token) (rest : List Token), parse_output (t :: rest) ≠ .panic := by
    intro t rest h
    simp only [parse_output] at h
    split at h
    · cases h
    · split at h
      · cases h
      · split at h <;> cases h
  refine ⟨fun _ => rfl, hout, ?_⟩
  intro tokens options htags h
  cases tokens with
  | nil => cases h
  | cons t0 rest =>
    cases t0 with
    | identifier x =>
      cases rest with
      | nil =>
        simp only [parse_expression] at h
        cases hl : options.tags.lookup x with
        | some p =>
          rw [hl] at h
          exact htags x p (lookup_mem _ _ _ hl) x [] h
        | none =>
          rw [hl] at h
          exact RResult.map_ne_panic _ _ (hout _ _) h
      | cons t1 rest2 =>
        simp only [parse_expression] at h
        by_cases hacc : t1 = Token.dot ∨ t1 = Token.openSquare
        · rw [if_pos hacc] at h
          obtain ⟨root, idx, hta⟩ := to_arg_identifier_shape x
          rw [hta] at h
          cases hpi : parse_indexes (t1 :: rest2) <;> rw [hpi] at h <;> cases h
        · rw [if_neg hacc] at h
          cases hl : options.tags.lookup x with
          | some p =>
            rw [hl] at h
            exact htags x p (lookup_mem _ _ _ hl) x (t1 :: rest2) h
          | none =>
            rw [hl] at h
            exact RResult.map_ne_panic _ _ (hout _ _) h
    | pipe =>
      simp only [parse_expression] at h
      exact RResult.map_ne_panic _ _ (hout _ _) h
    | dot =>
      simp only [parse_expression] at h
      exact RResult.map_ne_panic _ _ (hout _ _) h
    | colon =>
      simp only [parse_expression] at h
      exact RResult.map_ne_panic _ _ (hout _ _) h
    | comma =>
      simp only [parse_expression] at h
      exact RResult.map_ne_panic _ _ (hout _ _) h
    | openSquare =>
      simp only [parse_expression] at h
      exact RResult.map_ne_panic _ _ (hout _ _) h
    | closeSquare =>
      simp only [parse_expression] at h
      exact RResult.map_ne_panic _ _ (hout _ _) h
    | openRound =>
      simp only [parse_expression] at h
      exact RResult.map_ne_panic _ _ (hout _ _) h
    | closeRound =>
      simp only [parse_expression] at h
      exact RResult.map_ne_panic _ _ (hout _ _) h
    | question =>
      simp only [parse_expression] at h
      exact RResult.map_ne_panic _ _ (hout _ _) h
    | dash =>
      simp only [parse_expression] at h
      exact RResult.map_ne_panic _ _ (hout _ _) h
    | assignment =>
      simp only [parse_expression] at h
      exact RResult.map_ne_panic _ _ (hout _ _) h
    | stringLiteral s =>
      simp only [parse_expression] at h
      exact RResult.map_ne_panic _ _ (hout _ _) h
    | integerLiteral i =>
      simp only [parse_expression] at h
      exact RResult.map_ne_panic _ _ (hout _ _) h
    | floatLiteral f =>
      simp only [parse_expression] at h
      exact RResult.map_ne_panic _ _ (hout _ _) h
    | booleanLiteral b =>
      simp only [parse_expression] at h
      exact RResult.map_ne_panic _ _ (hout _ _) h
    | dotDot =>
      simp only [parse_expression] at h
      exact RResult.map_ne_panic _ _ (hout _ _) h
    | comparison op =>
      simp only [parse_expression] at h
      exact RResult.map_ne_panic _ _ (hout _ _) h
    | and =>
      simp only [parse_expression] at h
      exact RResult.map_ne_panic _ _ (hout _ _) h
    | or =>
      simp only [parse_expression] at h
      exact RResult.map_ne_panic _ _ (hout _ _) h

/-- C6 witness: the amended statement at concrete inputs — empty input to
`parse_expression` with the empty registry, and a non-empty slice through
`parse_output`. -/
theorem C6_witness :
    parse_expression [] ⟨[], []⟩ = .err (unexpected_token_error "expression" none)
    ∧ parse_output [Token.stringLiteral "hey"] ≠ .panic
    ∧ parse_expression [Token.stringLiteral "hey"] ⟨[], []⟩ ≠ .panic :=
  ⟨C6_typed_results.1 ⟨[], []⟩,
   C6_typed_results.2.1 (Token.stringLiteral "hey") [],
   C6_typed_results.2.2 [Token.stringLiteral "hey"] ⟨[], []⟩
     (by intro name p hmem; cases hmem)⟩

/-- C9: when an expression fragment starts with an identifier immediately
followed by `.` or `[`, `parse_expression` builds the variable node from
the identifier and its leading accessor chain and succeeds while silently
discarding every token after the accessor chain — for any registry, the
sequence of `a.b | upcase` parses to the bare variable `a.b` with the
filter pipeline neither parsed nor reported. -/
theorem C9_parse_expression_bypass :
    (∀ (options : LiquidOptions) (x : String) (t1 : Token) (rest : List Token)
       (root : Scalar) (pre idxs : List Expression),
       (t1 = Token.dot ∨ t1 = Token.openSquare) →
       (Token.identifier x).to_arg = .ok (.var root pre) →
       parse_indexes (t1 :: rest) = .ok idxs →
       parse_expression (Token.identifier x :: t1 :: rest) options
         = .ok (.varNode root (pre ++ idxs)))
    ∧ (∀ options : LiquidOptions,
       parse_expression [Token.identifier "a", Token.dot, Token.identifier "b",
           Token.pipe, Token.identifier "upcase"] options
         = .ok (.varNode (Scalar.str "a") [Expression.literal (Scalar.str "b")])
       ∧ parse_expression [Token.identifier "a", Token.dot, Token.identifier "b",
           Token.pipe, Token.identifier "upcase"] options
         = parse_expression [Token.identifier "a", Token.dot, Token.identifier "b"] options) := by
  constructor
  · intro options x t1 rest root pre idxs hacc hta hpi
    simp only [parse_expression, if_pos hacc, hta, hpi]
  · intro options
    exact ⟨rfl, rfl⟩

/-- C9 witness: the general bypass rule applied at the concrete tokens of
`a.b[0] | upcase`. -/
theorem C9_witness :
    parse_expression [Token.identifier "a", Token.dot, Token.identifier "b",
        Token.openSquare, Token.integerLiteral 0, Token.closeSquare,
        Token.pipe, Token.identifier "upcase"] ⟨[], []⟩
      = .ok (.varNode (Scalar.str "a")
          ([] ++ [Expression.literal (Scalar.str "b"), Expression.literal (Scalar.int 0)])) :=
  C9_parse_expression_bypass.1 ⟨[], []⟩ "a" Token.dot
    [Token.identifier "b", Token.openSquare, Token.integerLiteral 0, Token.closeSquare,
     Token.pipe, Token.identifier "upcase"]
    (Scalar.str "a") []
    [Expression.literal (Scalar.str "b"), Expression.literal (Scalar.int 0)]
    (Or.inl rfl) rfl rfl

theorem collect_of_scanDepth (tag end_tag : Token) :
    ∀ (body : List Element) (d d' : Nat),
    scanDepth tag end_tag d body = some d' →
    ∀ tail, collect tag end_tag d (body ++ tail)
      = (collect tag end_tag d' tail).map (fun p => (body ++ p.1, p.2)) := by
  intro body
  induction body with
  | nil =>
    intro d d' h tail
    simp only [scanDepth] at h
    cases h
    simp only [List.nil_append]
    cases collect tag end_tag d tail <;> rfl
  | cons e es ih =>
    intro d d' h tail
    cases e with
    | tag toks s =>
      cases toks with
      | nil => simp [scanDepth] at h
      | cons t0 ts =>
        simp only [scanDepth] at h
        simp only [List.cons_append, collect, List.append_eq]
        by_cases h1 : t0 = tag
        · rw [if_pos h1] at h ⊢
          rw [ih (d + 1) d' h tail]
          cases collect tag end_tag d' tail <;> rfl
        · by_cases h2 : t0 = end_tag ∧ d > 0
          · rw [if_neg h1, if_pos h2] at h ⊢
            rw [ih (d - 1) d' h tail]
            cases collect tag end_tag d' tail <;> rfl
          · by_cases h3 : t0 = end_tag ∧ d = 0
            · rw [if_neg h1, if_neg h2, if_pos h3] at h
              cases h
            · rw [if_neg h1, if_neg h2, if_neg h3] at h ⊢
              rw [ih d d' h tail]
              cases collect tag end_tag d' tail <;> rfl
    | expression toks s =>
      simp only [scanDepth] at h
      simp only [List.cons_append, collect, List.append_eq]
      rw [ih d d' h tail]
      cases collect tag end_tag d' tail <;> rfl
    | raw s =>
      simp only [scanDepth] at h
      simp only [List.cons_append, collect, List.append_eq]
      rw [ih d d' h tail]
      cases collect tag end_tag d' tail <;> rfl

theorem end_name_ne (x : String) : Token.identifier ("end" ++ x) ≠ Token.identifier x := by
  intro hcon
  have hs : "end" ++ x = x := by injection hcon
  have hlen := congrArg String.length hs
  rw [String.length_append] at hlen
  have h3 : "end".length = 3 := rfl
  omega

/-- C1: `parse_tag`'s body collection tracks same-named nesting — for any
registered block `x`, any body whose depth scan (increment at `x`-headed
tag fragments, decrement at positive depth for `end`+`x`-headed ones,
never hitting `end`+`x` at depth zero) returns to zero, followed by an
un-nested closing fragment and arbitrary trailing fragments, the block
handler receives exactly that body as the child buffer, the closing
fragment is consumed without being buffered, and the trailing fragments
remain on the cursor. -/
theorem C1_parse_tag_nesting :
    ∀ (x : String) (args : List Token)
      (p : String → List Token → List Element → RResult Renderable)
      (options : LiquidOptions) (body rest : List Element) (more : List Token) (s : String),
    options.tags.lookup x = none →
    options.blocks.lookup x = some p →
    scanDepth (Token.identifier x) (Token.identifier ("end" ++ x)) 0 body = some 0 →
    parse_tag (body ++ Element.tag (Token.identifier ("end" ++ x) :: more) s :: rest)
        (Token.identifier x :: args) options
      = (p x args body).map (fun r => (r, rest)) := by
  intro x args p options body rest more s htag hblk hscan
  have hstep : collect (Token.identifier x) (Token.identifier ("end" ++ x)) 0
      (Element.tag (Token.identifier ("end" ++ x) :: more) s :: rest) = some ([], rest) := by
    simp [collect, end_name_ne x]
  have hcol : collect (Token.identifier x) (Token.identifier ("end" ++ x)) 0
      (body ++ Element.tag (Token.identifier ("end" ++ x) :: more) s :: rest)
      = some (body, rest) := by
    rw [collect_of_scanDepth (Token.identifier x) (Token.identifier ("end" ++ x))
          body 0 0 hscan, hstep]
    simp
  simp only [parse_tag, htag, hblk, hcol]

/-- C1 witness: the spec's nesting scenario — fragments
`open(t) open(t) close(t) close(t) sibling`: the outer block's child
buffer is exactly the inner `open(t) close(t)` pair, both closing markers
are consumed, and the sibling fragment remains on the cursor. -/
theorem C1_witness :
    parse_tag [openT, closeT, closeT, Element.raw "s"]
        [Token.identifier "t"] optionsT
      = .ok (.ext "t" [] [openT, closeT], [Element.raw "s"]) := by
  have h := C1_parse_tag_nesting "t" [] harvest_block optionsT [openT, closeT]
    [Element.raw "s"] [] "endt" rfl rfl rfl
  simpa using h

/-- C10: when a registered block's opening fragment is never followed by a
matching un-nested closing tag (the depth scan over the whole remaining
cursor completes, at any final depth), `parse_tag` exhausts the cursor,
hands every remaining fragment to the block handler as the child buffer,
and dispatches as if the body were complete — no missing-closing-tag
error is produced. -/
theorem C10_parse_tag_unterminated :
    ∀ (x : String) (args : List Token)
      (p : String → List Token → List Element → RResult Renderable)
      (options : LiquidOptions) (rest : List Element) (d' : Nat),
    options.tags.lookup x = none →
    options.blocks.lookup x = some p →
    scanDepth (Token.identifier x) (Token.identifier ("end" ++ x)) 0 rest = some d' →
    parse_tag rest (Token.identifier x :: args) options
      = (p x args rest).map (fun r => (r, [])) := by
  intro x args p options rest d' htag hblk hscan
  have hcol : collect (Token.identifier x) (Token.identifier ("end" ++ x)) 0 rest
      = some (rest, []) := by
    have h := collect_of_scanDepth (Token.identifier x) (Token.identifier ("end" ++ x))
      rest 0 d' hscan []
    rw [List.append_nil] at h
    rw [h]
    simp [collect]
  simp only [parse_tag, htag, hblk, hcol]

/-- C10 witness: an unterminated `t` block over a raw fragment dispatches
with the full remaining stream as its body and an exhausted cursor. -/
theorem C10_witness :
    parse_tag [openT, closeT, Element.raw "s"] [Token.identifier "t"] optionsT
      = .ok (.ext "t" [] [openT, closeT, Element.raw "s"], []) := by
  have h := C10_parse_tag_unterminated "t" [] harvest_block optionsT
    [openT, closeT, Element.raw "s"] 0 rfl rfl rfl
  simpa using h

theorem split_block_from_none (delims : List String) (options : LiquidOptions) :
    ∀ (tokens : List Element) (stack : List String) (leading : List Element),
    split_block_from delims options stack tokens = some (leading, none) → leading = tokens := by
  intro tokens
  induction tokens with
  | nil =>
    intro stack leading h
    simp only [split_block_from] at h
    cases h
    rfl
  | cons e es ih =>
    intro stack leading h
    have step : ∀ (stack2 : List String),
        (split_block_from delims options stack2 es).map
          (fun p => (e :: p.1, p.2)) = some (leading, none) → leading = e :: es := by
      intro stack2 hm
      rw [Option.map_eq_some'] at hm
      obtain ⟨⟨l2, o2⟩, hrec, heq⟩ := hm
      obtain ⟨h1, h2⟩ := Prod.mk.inj heq
      subst h2
      rw [← h1, ih stack2 l2 hrec]
    cases e with
    | tag args txt =>
      cases args with
      | nil => simp [split_block_from] at h
      | cons t0 ts =>
        cases t0 <;> simp only [split_block_from] at h <;> try exact step _ h
        case identifier name =>
          split at h
          · exact step _ h
          · split at h
            · exact step _ h
            · split at h
              · simp at h
              · exact step _ h
    | expression toks txt =>
      simp only [split_block_from] at h
      exact step _ h
    | raw txt =>
      simp only [split_block_from] at h
      exact step _ h

theorem split_block_from_some (delims : List String) (options : LiquidOptions) :
    ∀ (tokens : List Element) (stack : List String) (leading : List Element) (sp : BlockSplit),
    split_block_from delims options stack tokens = some (leading, some sp) →
    tokens = leading ++ sp.trailing
    ∧ (∃ toks txt more, sp.trailing = Element.tag toks txt :: more ∧ sp.args = toks
       ∧ (∃ ts, toks = Token.identifier sp.delimiter :: ts))
    ∧ sp.delimiter ∈ delims := by
  intro tokens
  induction tokens with
  | nil =>
    intro stack leading sp h
    simp [split_block_from] at h
  | cons e es ih =>
    intro stack leading sp h
    have step : ∀ (stack2 : List String),
        (split_block_from delims options stack2 es).map
          (fun p => (e :: p.1, p.2)) = some (leading, some sp) →
        e :: es = leading ++ sp.trailing
        ∧ (∃ toks txt more, sp.trailing = Element.tag toks txt :: more ∧ sp.args = toks
           ∧ (∃ ts, toks = Token.identifier sp.delimiter :: ts))
        ∧ sp.delimiter ∈ delims := by
      intro stack2 hm
      rw [Option.map_eq_some'] at hm
      obtain ⟨⟨l2, o2⟩, hrec, heq⟩ := hm
      obtain ⟨h1, h2⟩ := Prod.mk.inj heq
      subst h2
      obtain ⟨ha, hb, hc⟩ := ih stack2 l2 sp hrec
      refine ⟨?_, hb, hc⟩
      rw [← h1, List.cons_append, ← ha]
    cases e with
    | tag args txt =>
      cases args with
      | nil => simp [split_block_from] at h
      | cons t0 ts =>
        cases t0 <;> simp only [split_block_from] at h <;> try exact step _ h
        case identifier name =>
          split at h
          · exact step _ h
          · split at h
            · exact step _ h
            · split at h
              · rename_i hcond
                injection h with h'
                obtain ⟨h1, h2⟩ := Prod.mk.inj h'
                subst h1
                have h2' : sp = ⟨name, Token.identifier name :: ts, Element.tag (Token.identifier name :: ts) txt :: es⟩ := by
                  injection h2 with h2
                  exact h2.symm
                subst h2'
                exact ⟨by simp, ⟨Token.identifier name :: ts, txt, es, rfl, rfl, ts, rfl⟩,
                       hcond.2⟩
              · exact step _ h
    | expression toks txt =>
      simp only [split_block_from] at h
      exact step _ h
    | raw txt =>
      simp only [split_block_from] at h
      exact step _ h

/-- C2: `split_block` maintains the stack of expected closing names and
splits at the first top-level delimiter: when no split is found the whole
input is returned as leading; when one is found, the input decomposes as
leading followed by the trailing fragments, the first trailing fragment is
a tag fragment whose tokens are returned as the split's argument slice and
whose leading identifier is the returned delimiter, a member of the
delimiter set.  Delimiter fragments nested inside registered blocks are
not chosen: with block `for` registered, an `else` inside a `for`/`endfor`
pair is skipped and the outer `else` is the split point. -/
theorem C2_split_block :
    (∀ (tokens : List Element) (delims : List String) (options : LiquidOptions)
       (leading : List Element),
       split_block tokens delims options = some (leading, none) → leading = tokens)
    ∧ (∀ (tokens : List Element) (delims : List String) (options : LiquidOptions)
       (leading : List Element) (sp : BlockSplit),
       split_block tokens delims options = some (leading, some sp) →
       tokens = leading ++ sp.trailing
       ∧ (∃ toks txt more, sp.trailing = Element.tag toks txt :: more ∧ sp.args = toks
          ∧ (∃ ts, toks = Token.identifier sp.delimiter :: ts))
       ∧ sp.delimiter ∈ delims)
    ∧ split_block
        [Element.tag [Token.identifier "for"] "for",
         Element.tag [Token.identifier "else"] "else1",
         Element.tag [Token.identifier "endfor"] "endfor",
         Element.tag [Token.identifier "else"] "else2",
         Element.raw "x"] ["else"] optionsFor
      = some ([Element.tag [Token.identifier "for"] "for",
               Element.tag [Token.identifier "else"] "else1",
               Element.tag [Token.identifier "endfor"] "endfor"],
              some ⟨"else", [Token.identifier "else"],
                    [Element.tag [Token.identifier "else"] "else2", Element.raw "x"]⟩) := by
  refine ⟨?_, ?_, rfl⟩
  · intro tokens delims options leading h
    exact split_block_from_none delims options tokens [] leading h
  · intro tokens delims options leading sp h
    exact split_block_from_some delims options tokens [] leading sp h

/-- C2 witness: the decomposition facts at the nested-`else` instance. -/
theorem C2_witness :
    ([Element.tag [Token.identifier "for"] "for",
      Element.tag [Token.identifier "else"] "else1",
      Element.tag [Token.identifier "endfor"] "endfor",
      Element.tag [Token.identifier "else"] "else2",
      Element.raw "x"] : List Element)
      = [Element.tag [Token.identifier "for"] "for",
         Element.tag [Token.identifier "else"] "else1",
         Element.tag [Token.identifier "endfor"] "endfor"]
        ++ (BlockSplit.mk "else" [Token.identifier "else"]
              [Element.tag [Token.identifier "else"] "else2", Element.raw "x"]).trailing
    ∧ (∃ toks txt more,
        (BlockSplit.mk "else" [Token.identifier "else"]
          [Element.tag [Token.identifier "else"] "else2", Element.raw "x"]).trailing
          = Element.tag toks txt :: more
        ∧ (BlockSplit.mk "else" [Token.identifier "else"]
            [Element.tag [Token.identifier "else"] "else2", Element.raw "x"]).args = toks
        ∧ (∃ ts, toks = Token.identifier
            (BlockSplit.mk "else" [Token.identifier "else"]
              [Element.tag [Token.identifier "else"] "else2", Element.raw "x"]).delimiter :: ts))
    ∧ (BlockSplit.mk "else" [Token.identifier "else"]
        [Element.tag [Token.identifier "else"] "else2", Element.raw "x"]).delimiter
        ∈ ["else"] :=
  C2_split_block.2.1
    [Element.tag [Token.identifier "for"] "for",
     Element.tag [Token.identifier "else"] "else1",
     Element.tag [Token.identifier "endfor"] "endfor",
     Element.tag [Token.identifier "else"] "else2",
     Element.raw "x"] ["else"] optionsFor
    [Element.tag [Token.identifier "for"] "for",
     Element.tag [Token.identifier "else"] "else1",
     Element.tag [Token.identifier "endfor"] "endfor"]
    ⟨"else", [Token.identifier "else"],
     [Element.tag [Token.identifier "else"] "else2", Element.raw "x"]⟩ rfl

/-- C8: parsing is deterministic — the same fragment sequence and registry
always produce the same result tree (the parser is a pure function of its
inputs). -/
theorem C8_parse_deterministic :
    ∀ (elements : List Element) (options : LiquidOptions) (r1 r2 : List Renderable),
    parse elements options = .ok r1 → parse elements options = .ok r2 → r1 = r2 := by
  intro elements options r1 r2 h1 h2
  rw [h1] at h2
  cases h2
  rfl

/-- C8 witness: determinism applied at a concrete one-fragment parse. -/
theorem C8_witness :
    parse [Element.raw "x"] ⟨[], []⟩ = .ok [Renderable.text "x"]
    ∧ ([Renderable.text "x"] : List Renderable) = [Renderable.text "x"] := by
  have hp : parse [Element.raw "x"] (⟨[], []⟩ : LiquidOptions) = .ok [Renderable.text "x"] := by
    rw [parse.eq_def]
    simp only []
    rw [parse.eq_def]
    rfl
  exact ⟨hp, C8_parse_deterministic [Element.raw "x"] ⟨[], []⟩ _ _ hp hp⟩

theorem mapM_eq_evaluateArguments (context : Context) :
    ∀ (l : List Argument), l.mapM (fun a => a context) = evaluateArguments context l := by
  intro l
  induction l with
  | nil => rfl
  | cons a rest ih =>
    rw [List.mapM_cons]
    cases ha : a context with
    | error e =>
      simp only [evaluateArguments, ha]
      rfl
    | ok v =>
      simp only [evaluateArguments, ha, ← ih]
      cases hm : rest.mapM (fun a => a context) with
      | error e =>
        simp only [hm]
        rfl
      | ok vs =>
        simp only [hm]
        rfl

theorem foldlM_eq_applyFiltersSpecFrom (context : Context) :
    ∀ (filters : List FilterPrototype) (entry : Value),
    List.foldlM
      (fun entry filter =>
        match context.get_filter filter.name with
        | none => Except.error (.context (.withMsg "Unsupported filter") "filter" filter.name)
        | some f => do
          let arguments ← filter.arguments.mapM (fun a => a context)
          match f entry arguments with
          | .ok v => Except.ok v
          | .error e => Except.error (.chained "Filter error" e))
      entry filters
      = applyFiltersSpecFrom context entry filters := by
  intro filters
  induction filters with
  | nil => intro entry; rfl
  | cons f fs ih =>
    intro entry
    rw [List.foldlM_cons]
    cases hg : context.get_filter f.name with
    | none =>
      simp only [applyFiltersSpecFrom, hg]
      rfl
    | some impl =>
      simp only [applyFiltersSpecFrom, hg]
      rw [mapM_eq_evaluateArguments context f.arguments]
      cases hargs : evaluateArguments context f.arguments with
      | error e =>
        simp only [hargs, Bind.bind, Except.bind]
      | ok vs =>
        simp only [hargs, Bind.bind, Except.bind]
        cases hf : impl entry vs with
        | error e =>
          simp only [hf]
        | ok v =>
          simp only [hf]
          exact ih v

/-- C7: `Output::apply_filters` evaluates the entry first, then threads the
running value through the filters in order — each filter is looked up by
name (an "Unsupported filter" error carrying the name when absent), its
argument expressions are evaluated with failures propagating, the filter
is invoked on the running value with the evaluated arguments, its result
replaces the running value, and a failure inside the filter is wrapped
with "Filter error"; the final running value is returned.  Stated as
equality with `applyFiltersSpec`, the evaluator worded after the spec. -/
theorem C7_apply_filters_follows_spec :
    ∀ (o : Output) (context : Context),
    o.apply_filters context = applyFiltersSpec o context := by
  intro o context
  unfold Output.apply_filters applyFiltersSpec
  cases he : o.entry context with
  | error e =>
    simp only [he]
    rfl
  | ok v =>
    simp only [he]
    have h := foldlM_eq_applyFiltersSpecFrom context o.filters v
    exact h

/-- C7 witness: the equality at a concrete output and context — one filter
that appends an exclamation mark to a string value. -/
theorem C7_witness :
    Output.apply_filters
        ⟨fun _ => .ok (Scalar.str "v"),
         [⟨"shout", []⟩]⟩
        ⟨[("shout", fun v _ =>
            match v with
            | .str s => .ok (.str (s ++ "!"))
            | other => .ok other)]⟩
      = applyFiltersSpec
          ⟨fun _ => .ok (Scalar.str "v"),
           [⟨"shout", []⟩]⟩
          ⟨[("shout", fun v _ =>
              match v with
              | .str s => .ok (.str (s ++ "!"))
              | other => .ok other)]⟩ :=
  C7_apply_filters_follows_spec
    ⟨fun _ => .ok (Scalar.str "v"), [⟨"shout", []⟩]⟩
    ⟨[("shout", fun v _ =>
        match v with
        | .str s => .ok (.str (s ++ "!"))
        | other => .ok other)]⟩

end Liquid
